import Mathlib

/-!
Shallow embedding of `music_key_detector.py` and proofs about the claims of
its specification.

Modelling conventions:
* Python floats are modelled as exact numbers: the classifier layer (which
  only adds, multiplies, divides and compares) is embedded over `ℚ`; the
  spectral layer (which uses `log2`, `cos`, complex exponentials and square
  roots) is embedded over `ℝ`/`ℂ`.
* Python's `sorted` is a stable sort ascending in the key; it is embedded as
  `List.insertionSort`, which is stable with the same tie behaviour
  (an element earlier in the input is placed before a later, equal-key one).
* Python's floor division `//` with a positive divisor coincides with `Int`
  Euclidean division `/`, and Python's `%` on integers with `Int.emod`.
* `round` is embedded as Lean's `round` (round-half-up); the Python built-in
  rounds halves to even, but the two agree off exact half-integers, and the
  midi value `69 + 12*log2(f/440)` is an exact half-integer for no rational
  frequency, in particular for no FFT bin frequency.
-/

namespace MusicKeyDetector

/-- The chromatic scale, `CHROMATIC_SCALE` in the source; the source
writes the literal over two lines, split after F, and the append below
mirrors that split. -/
def CHROMATIC_SCALE : List String :=
  ["C", "C#", "D", "D#", "E", "F"] ++
    ["F#", "G", "G#", "A", "A#", "B"]

/-- The scale interval table `SCALES`; a Python dict preserves insertion
order, so it is embedded as an association list in declaration order. -/
def SCALES : List (String × List ℤ) :=
  [("Major", [2, 2, 1, 2, 2, 2, 1]),
   ("Natural Minor", [2, 1, 2, 2, 1, 2, 2]),
   ("Harmonic Minor", [2, 1, 2, 2, 1, 3, 1]),
   ("Melodic Minor", [2, 1, 2, 2, 2, 2, 1]),
   ("Dorian", [2, 1, 2, 2, 2, 1, 2]),
   ("Phrygian", [1, 2, 2, 2, 1, 2, 2]),
   ("Lydian", [2, 2, 2, 1, 2, 2, 1]),
   ("Mixolydian", [2, 2, 1, 2, 2, 1, 2]),
   ("Locrian", [1, 2, 2, 1, 2, 2, 2])]

/-- The `KEY_SCALES` list from the source. -/
def KEY_SCALES : List String :=
  ["Major", "Natural Minor", "Harmonic Minor", "Melodic Minor"]

/-- The `MODE_SCALES` list from the source. -/
def MODE_SCALES : List String :=
  ["Dorian", "Phrygian", "Lydian", "Mixolydian", "Locrian"]

/-- Embeds `generate_scale(root, intervals)`.  `CHROMATIC_SCALE.index(root)` raises
`ValueError` when `root` is absent, embedded as `none`.  The running index is
an integer updated by `index = (index + step) % len(CHROMATIC_SCALE)`
(Python `%` on integers is `Int.emod`). -/
def generate_scale (root : String) (intervals : List ℤ) : Option (List String) :=
  if root ∈ CHROMATIC_SCALE then
    some (intervals.foldl
      (fun acc step =>
        let index := (acc.2 + step) % (CHROMATIC_SCALE.length : ℤ)
        (acc.1 ++ [CHROMATIC_SCALE.getD index.toNat ""], index))
      ([root], (CHROMATIC_SCALE.indexOf root : ℤ))).1
  else none

/-- Embeds `pitch_class_profile(scale)`.  The dataframe has one row per chromatic
note with value 0; for each `note` in `scale` the rows whose name equals
`note` are set to 1; the value column is then divided by its sum. -/
def pitch_class_profile (scale : List String) : List ℚ :=
  let df := scale.foldl
    (fun df note => df.map (fun row => if row.1 = note then (row.1, (1 : ℚ)) else row))
    (CHROMATIC_SCALE.map (fun note => (note, (0 : ℚ))))
  let values := df.map (·.2)
  values.map (· / values.sum)

/-- The module-level `scale_profiles` table: for every scale name (in
declaration order) the list of twelve profiles, one per root note in
chromatic order.  `generate_scale` never fails here because every root is a
member of `CHROMATIC_SCALE`. -/
def scale_profiles : List (String × List (List ℚ)) :=
  SCALES.map (fun p =>
    (p.1, CHROMATIC_SCALE.map (fun note =>
      pitch_class_profile ((generate_scale note p.2).getD []))))

/-- Embeds `np.max` of a (nonempty) one-dimensional array. -/
def npMax (l : List ℚ) : ℚ :=
  match l with
  | [] => 0
  | a :: t => t.foldl max a

/-- Embeds `np.argmax`: the first index at which the maximum is attained. -/
def npArgmax (l : List ℚ) : ℕ :=
  l.findIdx (fun x => x == npMax l)

/-- Embeds `np.sum(pcp_accum * profile)`: elementwise product, then sum. -/
def score (pcp_accum profile : List ℚ) : ℚ :=
  ((pcp_accum.zip profile).map (fun p => p.1 * p.2)).sum

/-- The sort key `lambda x: (-x[2], CHROMATIC_SCALE.index(x[0]))`. -/
def sortKey (c : String × String × ℚ) : ℚ × ℕ :=
  (-c.2.2, CHROMATIC_SCALE.indexOf c.1)

/-- Comparison of candidates by ascending lexicographic order of their sort
keys, exactly as Python's `sorted` compares key tuples. -/
def keyLE (a b : String × String × ℚ) : Prop :=
  (sortKey a).1 < (sortKey b).1 ∨
    ((sortKey a).1 = (sortKey b).1 ∧ (sortKey a).2 ≤ (sortKey b).2)

instance : DecidableRel keyLE := fun a b => by
  unfold keyLE
  infer_instance

/-- The `key_scores` list built in `main`: for every scale (in declaration
order), for every root index `i` (in chromatic order), the triple
`(CHROMATIC_SCALE[i], scale_name, score)`. -/
def key_scores (pcp_accum : List ℚ) : List (String × String × ℚ) :=
  scale_profiles.flatMap (fun sp =>
    sp.2.enum.map (fun ip =>
      (CHROMATIC_SCALE.getD ip.1 "", sp.1, score pcp_accum ip.2)))

/-- Embeds `key_scores_sorted`: Python's stable `sorted` with the key above,
embedded as the stable `insertionSort`. -/
def key_scores_sorted (pcp_accum : List ℚ) : List (String × String × ℚ) :=
  (key_scores pcp_accum).insertionSort keyLE

/-- The reported outcome of `main`'s scale-detection section. -/
inductive Detection where
  | singleTone (note : String)
  | scaleMatch (scaleType root scaleName : String)
deriving DecidableEq

/-- The scale-detection logic of `main`, from the computed pitch-class
profile onwards: the single-tone shortcut at threshold `0.4`, otherwise the
best entry of `key_scores_sorted` labelled "Key" or "Mode". -/
def detect (pcp_accum : List ℚ) : Detection :=
  if npMax pcp_accum > 2/5 then
    Detection.singleTone (CHROMATIC_SCALE.getD (npArgmax pcp_accum) "")
  else
    let best_key := (key_scores_sorted pcp_accum).headD ("", "", 0)
    Detection.scaleMatch (if best_key.2.1 ∈ KEY_SCALES then "Key" else "Mode")
      best_key.1 best_key.2.1

/-- The `midi = 69 + 12 * np.log2(freq / 440.0)` formula followed by
`int(round(midi)) % 12` from `compute_pitch_class_profile`.  The result of
Python `%` on integers lies in `[0, 12)`, so it is a valid index. -/
noncomputable def pitchClassIdx (freq : ℝ) : Fin 12 :=
  ⟨((round (69 + 12 * Real.logb 2 (freq / 440)) : ℤ) % 12).toNat, by omega⟩

open Classical in
/-- One iteration of the loop in `compute_pitch_class_profile`: add the
bin's magnitude to the accumulator entry of its pitch class when the
frequency satisfies `20 <= freq <= 5000`, else leave the accumulator
unchanged. -/
noncomputable def pcpStep (acc : Fin 12 → ℝ) (fm : ℝ × ℝ) : Fin 12 → ℝ :=
  if 20 ≤ fm.1 ∧ fm.1 ≤ 5000 then
    Function.update acc (pitchClassIdx fm.1) (acc (pitchClassIdx fm.1) + fm.2)
  else acc

/-- The accumulation loop of `compute_pitch_class_profile`: walk the
`(frequency, magnitude)` pairs starting from the zero array.  The
12-element numpy array is modelled as a function on `Fin 12`. -/
noncomputable def pcpAccumArray (frequencies magnitude : List ℝ) : Fin 12 → ℝ :=
  (frequencies.zip magnitude).foldl pcpStep (fun _ => 0)

open Classical in
/-- Embeds `compute_pitch_class_profile(frequencies, magnitude)`: the accumulated
array, returned unchanged when its total is 0 and divided by the total
otherwise. -/
noncomputable def compute_pitch_class_profile (frequencies magnitude : List ℝ) :
    Fin 12 → ℝ :=
  let pcp := pcpAccumArray frequencies magnitude
  let total := ∑ pc, pcp pc
  if total = 0 then pcp else fun pc => pcp pc / total

/-- The constant `window_size = 4096`. -/
def window_size : ℕ := 4096

/-- The constant `step_size = 2048`. -/
def step_size : ℕ := 2048

/-- Embeds `scipy.signal.windows.hann(window_size, sym=False)`:
`w[n] = 0.5 - 0.5*cos(2*pi*n/M)` for the periodic (`sym=False`) window. -/
noncomputable def hanning_window (n : ℕ) : ℝ :=
  1/2 - 1/2 * Real.cos (2 * Real.pi * n / window_size)

/-- Python `range(0, stop, step)` for `step > 0`: the multiples of `step`
that are `< stop` (empty when `stop ≤ 0`).  `(stop + step - 1) / step` is
its length, using `Int` Euclidean division, which rounds like Python `//`
for a positive divisor. -/
def pyRange (stop : ℤ) (step : ℕ) : List ℤ :=
  (List.range ((stop + step - 1) / step).toNat).map (fun n : ℕ => (n : ℤ) * step)

/-- Embeds `num_windows = (len(data) - window_size) // step_size` (Python floor
division; the divisor is positive, so `Int` Euclidean division matches). -/
def num_windows (len : ℕ) : ℤ :=
  ((len : ℤ) - window_size) / step_size

/-- Element `n` of `data[start:start+window_size] * hanning_window`: the
slice is fully in range for every start offset the analyzer uses, so it is
read with a default of 0. -/
noncomputable def segmentValue (data : List ℝ) (start n : ℕ) : ℝ :=
  data.getD (start + n) 0 * hanning_window n

/-- Embeds `np.abs(np.fft.rfft(segment))[k]`: the magnitude at bin `k` of the
discrete Fourier transform of the windowed segment starting at `start`,
`rfft(s)[k] = Σ_n s[n] * exp(-2*pi*i*k*n/N)`. -/
noncomputable def rfftMagnitude (data : List ℝ) (start k : ℕ) : ℝ :=
  Complex.abs (∑ n ∈ Finset.range window_size,
    (segmentValue data start n : ℂ) *
      Complex.exp (-(2 * Real.pi * Complex.I * k * n) / window_size))

/-- The averaged magnitude spectrum computed by `main` at bin `k`: the sum
of the per-segment magnitudes over `range(0, len(data) - window_size,
step_size)`, divided by `num_windows` when `num_windows > 0`. -/
noncomputable def averagedMagnitude (data : List ℝ) (k : ℕ) : ℝ :=
  let magnitude := (pyRange ((data.length : ℤ) - window_size) step_size).foldl
    (fun acc start => acc + rfftMagnitude data start.toNat k) 0
  if 0 < num_windows data.length then magnitude / num_windows data.length
  else magnitude

/-- The analyzer's warning: the source prints "Warning: Not enough data for
FFT." exactly when `num_windows > 0` fails. -/
def warnsInsufficientData (data : List ℝ) : Prop :=
  ¬ 0 < num_windows data.length

/-- Modelled from the spec (for comparison with the code): the segment
offsets the spec prescribes, "offsets 0, H, 2H, … while
`offset + W <= len(samples)`". -/
def claimStarts (len : ℕ) : List ℕ :=
  ((List.range (len / step_size + 1)).map (fun n => n * step_size)).filter
    (fun offset => offset + window_size ≤ len)

/-- Modelled from the spec (for comparison with the code): the bin-wise
arithmetic mean of the per-segment magnitudes over the spec's offsets,
"the sum divided by the number of segments processed". -/
noncomputable def specAveragedMagnitude (data : List ℝ) (k : ℕ) : ℝ :=
  ((claimStarts data.length).map (fun start => rfftMagnitude data start k)).sum /
    (claimStarts data.length).length

/-- The chromatic table has twelve entries. -/
lemma chromatic_length : CHROMATIC_SCALE.length = 12 := rfl

/-- Distinct positions of the chromatic table hold distinct note names. -/
lemma chromatic_getD_inj : ∀ s < 12, ∀ t < 12,
    (CHROMATIC_SCALE.getD s "" = CHROMATIC_SCALE.getD t "" ↔ s = t) := by decide

/-- Reading the chromatic table at equal indices gives equal notes. -/
lemma chromatic_getD_congr {s t : ℕ} (h : s = t) :
    CHROMATIC_SCALE.getD s "" = CHROMATIC_SCALE.getD t "" := by rw [h]

/-- Reading the chromatic table at the index of a member returns it. -/
lemma chromatic_getD_indexOf {root : String} (h : root ∈ CHROMATIC_SCALE) :
    CHROMATIC_SCALE.getD (CHROMATIC_SCALE.indexOf root) "" = root := by
  have hlt : CHROMATIC_SCALE.indexOf root < CHROMATIC_SCALE.length :=
    List.indexOf_lt_length.mpr h
  rw [List.getD_eq_getElem CHROMATIC_SCALE "" hlt]
  exact List.getElem_indexOf hlt

/-- The index of a chromatic member is below 12. -/
lemma chromatic_indexOf_lt {root : String} (h : root ∈ CHROMATIC_SCALE) :
    CHROMATIC_SCALE.indexOf root < 12 :=
  List.indexOf_lt_length.mpr h

/-- C8: for every root in the 12-note chromatic set and every interval list
of 7 integers, `generate_scale` returns an 8-element sequence whose first
element is the root and whose `m`-th element is the chromatic note at index
`(index_of(root) + sum of the first m steps) mod 12`; the 8th element
equals the root exactly when the steps sum to a multiple of 12; for root C
with the Major intervals the result is [C,D,E,F,G,A,B,C]; and the function
fails exactly if the root is not a member of the chromatic set. -/
theorem generate_scale_spec (root : String) (intervals : List ℤ)
    (h7 : intervals.length = 7) :
    (root ∈ CHROMATIC_SCALE →
      ∃ scale, generate_scale root intervals = some scale ∧
        scale.length = 8 ∧
        scale.headD "" = root ∧
        (∀ m : ℕ, m < 8 →
          scale.getD m "" =
            CHROMATIC_SCALE.getD
              ((((CHROMATIC_SCALE.indexOf root : ℤ) + (intervals.take m).sum) % 12).toNat) "") ∧
        (scale.getD 7 "" = root ↔ (12 : ℤ) ∣ intervals.sum)) ∧
    (generate_scale root intervals = none ↔ root ∉ CHROMATIC_SCALE) ∧
    generate_scale "C" [2, 2, 1, 2, 2, 2, 1] =
      some ["C", "D", "E", "F", "G", "A", "B", "C"] := by
  refine ⟨?_, ?_, by decide⟩
  · intro hmem
    have hi : CHROMATIC_SCALE.indexOf root < 12 := chromatic_indexOf_lt hmem
    have hroot : CHROMATIC_SCALE.getD (CHROMATIC_SCALE.indexOf root) "" = root :=
      chromatic_getD_indexOf hmem
    rcases intervals with _ | ⟨a1, _ | ⟨a2, _ | ⟨a3, _ | ⟨a4, _ | ⟨a5, _ | ⟨a6, _ | ⟨a7, _ | ⟨a8, t⟩⟩⟩⟩⟩⟩⟩⟩ <;>
      simp only [List.length_nil, List.length_cons] at h7 <;> try omega
    rw [generate_scale, if_pos hmem]
    refine ⟨_, rfl, ?_, ?_, ?_⟩
    · simp only [List.foldl_cons, List.foldl_nil]
      simp
    · simp only [List.foldl_cons, List.foldl_nil]
      simp
    constructor
    · intro m hm
      interval_cases m <;>
        simp only [List.foldl_cons, List.foldl_nil] <;>
        simp [chromatic_length, -List.getD_eq_getElem?_getD] <;>
        first
          | rfl
          | (apply chromatic_getD_congr
             omega)
          | (nth_rewrite 1 [← hroot]
             apply chromatic_getD_congr
             omega)
    · simp only [List.foldl_cons, List.foldl_nil]
      simp [chromatic_length, -List.getD_eq_getElem?_getD]
      nth_rewrite 2 [← hroot]
      constructor
      · intro heq
        have h12 := (chromatic_getD_inj _ (by omega) _ hi).mp heq
        omega
      · intro hdvd
        apply chromatic_getD_congr
        omega
  · unfold generate_scale
    by_cases hmem : root ∈ CHROMATIC_SCALE <;> simp [hmem]

/-- Witness for C8 at root C with the Major interval list. -/
theorem generate_scale_spec_witness :
    generate_scale "C" [2, 2, 1, 2, 2, 2, 1] =
      some ["C", "D", "E", "F", "G", "A", "B", "C"] :=
  (generate_scale_spec "C" [2, 2, 1, 2, 2, 2, 1] rfl).2.2

/-- Effect of the dataframe-update loop in `pitch_class_profile`: a row
keeps its name, and its value ends up 1 exactly when its name occurs in the
scale (later passes re-set the same rows to 1). -/
lemma pcp_foldl_eq (scale : List String) (v : String → ℚ) :
    scale.foldl
      (fun df note => df.map (fun row => if row.1 = note then (row.1, (1 : ℚ)) else row))
      (CHROMATIC_SCALE.map (fun note => (note, v note)))
    = CHROMATIC_SCALE.map (fun note => (note, if note ∈ scale then (1 : ℚ) else v note)) := by
  induction scale generalizing v with
  | nil => simp
  | cons a t ih =>
    rw [List.foldl_cons]
    have hstep :
        (CHROMATIC_SCALE.map (fun note => (note, v note))).map
          (fun row => if row.1 = a then (row.1, (1 : ℚ)) else row)
        = CHROMATIC_SCALE.map (fun note => (note, if note = a then (1 : ℚ) else v note)) := by
      rw [List.map_map]
      refine List.map_congr_left fun x _ => ?_
      by_cases hx : x = a <;> simp [hx]
    rw [hstep, ih]
    refine List.map_congr_left fun x _ => ?_
    by_cases hx1 : x ∈ t <;> by_cases hx2 : x = a <;>
      simp [hx1, hx2, List.mem_cons]

/-- Summing a constant over the members of `s` occurring in `l`. -/
lemma sum_map_ite_mem (l s : List String) (x : ℚ) :
    ((l.map (fun n => if n ∈ s then x else 0)).sum) =
      ((l.filter (fun n => n ∈ s)).length : ℚ) * x := by
  induction l with
  | nil => simp
  | cons a t ih =>
    by_cases h : a ∈ s
    · simp [List.filter_cons, h, ih]
      ring
    · simp [List.filter_cons, h, ih]

/-- Closed form of `pitch_class_profile`: bin 1 for every chromatic note
present in the scale, 0 elsewhere, each divided by the number of set bins. -/
lemma pitch_class_profile_eq (scale : List String) :
    pitch_class_profile scale =
      CHROMATIC_SCALE.map (fun note =>
        (if note ∈ scale then (1 : ℚ) else 0) /
          ((CHROMATIC_SCALE.filter (fun note => note ∈ scale)).length : ℚ)) := by
  unfold pitch_class_profile
  rw [pcp_foldl_eq scale (fun _ => 0)]
  simp only [List.map_map, Function.comp_def]
  rw [show ((CHROMATIC_SCALE.map (fun x =>
      ((x, if x ∈ scale then (1 : ℚ) else 0)).2)).sum)
    = ((CHROMATIC_SCALE.filter (fun n => n ∈ scale)).length : ℚ) from by
      simpa using sum_map_ite_mem CHROMATIC_SCALE scale 1]

/-- Every one of the 9×12 template scales contains exactly 7 distinct
chromatic notes. -/
lemma template_seven_notes :
    ∀ p ∈ SCALES, ∀ root ∈ CHROMATIC_SCALE,
      (CHROMATIC_SCALE.filter (fun note =>
        note ∈ (generate_scale root p.2).getD [])).length = 7 := by decide

/-- Each of the 108 template profiles in closed form: 1/7 on the 7 scale
notes, 0 elsewhere, summing to 1. -/
lemma template_profile_props (p : String × List ℤ) (hp : p ∈ SCALES)
    (root : String) (hroot : root ∈ CHROMATIC_SCALE) :
    (CHROMATIC_SCALE.filter (fun note =>
      note ∈ (generate_scale root p.2).getD [])).length = 7
    ∧ pitch_class_profile ((generate_scale root p.2).getD []) =
        CHROMATIC_SCALE.map (fun note =>
          if note ∈ (generate_scale root p.2).getD [] then (1 : ℚ)/7 else 0)
    ∧ (pitch_class_profile ((generate_scale root p.2).getD [])).sum = 1 := by
  have h7 := template_seven_notes p hp root hroot
  have hmap : pitch_class_profile ((generate_scale root p.2).getD []) =
      CHROMATIC_SCALE.map (fun note =>
        if note ∈ (generate_scale root p.2).getD [] then (1 : ℚ)/7 else 0) := by
    rw [pitch_class_profile_eq, h7]
    refine List.map_congr_left fun x _ => ?_
    by_cases hx : x ∈ (generate_scale root p.2).getD [] <;> simp [hx]
  refine ⟨h7, hmap, ?_⟩
  rw [hmap, sum_map_ite_mem, h7]
  norm_num

/-- C9: `pitch_class_profile` sets bin 1 for each distinct chromatic note
present (repeats collapse), 0 elsewhere, and divides by the count of set
bins; each of the 108 templates (9 scales × 12 roots, each scale having
exactly 7 distinct notes) assigns 1/7 to its scale notes, 0 to the other
bins, and sums to 1. -/
theorem pitch_class_profile_templates :
    (∀ scale : List String,
      pitch_class_profile scale =
        CHROMATIC_SCALE.map (fun note =>
          (if note ∈ scale then (1 : ℚ) else 0) /
            ((CHROMATIC_SCALE.filter (fun note => note ∈ scale)).length : ℚ)))
    ∧ scale_profiles.length = 9
    ∧ (∀ sp ∈ scale_profiles, sp.2.length = 12)
    ∧ (∀ p ∈ SCALES, ∀ root ∈ CHROMATIC_SCALE,
        (CHROMATIC_SCALE.filter (fun note =>
          note ∈ (generate_scale root p.2).getD [])).length = 7
        ∧ pitch_class_profile ((generate_scale root p.2).getD []) =
            CHROMATIC_SCALE.map (fun note =>
              if note ∈ (generate_scale root p.2).getD [] then (1 : ℚ)/7 else 0)
        ∧ (pitch_class_profile ((generate_scale root p.2).getD [])).sum = 1) := by
  refine ⟨pitch_class_profile_eq, rfl, ?_, template_profile_props⟩
  intro sp hsp
  obtain ⟨p, hp, rfl⟩ := List.mem_map.mp hsp
  simpa using chromatic_length

/-- Witness for C9 at the C Major template. -/
theorem pitch_class_profile_templates_witness :
    (pitch_class_profile ((generate_scale "C" [2, 2, 1, 2, 2, 2, 1]).getD [])).sum = 1 :=
  (pitch_class_profile_templates.2.2.2 ("Major", [2, 2, 1, 2, 2, 2, 1]) (by decide)
    "C" (by decide)).2.2

/-- C5: the classifier bypasses template scoring and reports kind Single
Tone with the chromatic note at the first maximal index exactly when the
maximum of the observed profile strictly exceeds 0.4 (= 2/5); at or below
the threshold it reports the best-ranked template candidate instead. -/
theorem single_tone_shortcut (pcp_accum : List ℚ) (_hlen : pcp_accum.length = 12) :
    (∀ note, detect pcp_accum = Detection.singleTone note ↔
      (npMax pcp_accum > 2/5 ∧ note = CHROMATIC_SCALE.getD (npArgmax pcp_accum) ""))
    ∧ (npMax pcp_accum ≤ 2/5 →
      detect pcp_accum =
        Detection.scaleMatch
          (if ((key_scores_sorted pcp_accum).headD ("", "", 0)).2.1 ∈ KEY_SCALES
            then "Key" else "Mode")
          ((key_scores_sorted pcp_accum).headD ("", "", 0)).1
          ((key_scores_sorted pcp_accum).headD ("", "", 0)).2.1) := by
  unfold detect
  by_cases h : npMax pcp_accum > 2/5
  · rw [if_pos h]
    refine ⟨fun note => ?_, fun hle => absurd h (not_lt.mpr hle)⟩
    constructor
    · intro he
      refine ⟨h, ?_⟩
      injection he with h2
      exact h2.symm
    · rintro ⟨-, rfl⟩
      rfl
  · rw [if_neg h]
    refine ⟨fun note => ?_, fun _ => rfl⟩
    constructor
    · intro he
      exact Detection.noConfusion he
    · rintro ⟨hgt, -⟩
      exact absurd hgt h

/-- Witness for C5: a profile fully concentrated on C is reported as the
single tone C. -/
theorem single_tone_shortcut_witness :
    detect [1, 0, 0, 0, 0, 0, 0, 0, 0, 0, 0, 0] = Detection.singleTone "C" := by
  have hmax : npMax [1, 0, 0, 0, 0, 0, 0, 0, 0, 0, 0, 0] = 1 := by
    norm_num [npMax, max_def]
  have harg : npArgmax [1, 0, 0, 0, 0, 0, 0, 0, 0, 0, 0, 0] = 0 := by
    unfold npArgmax
    rw [hmax]
    simp [List.findIdx_cons]
  refine ((single_tone_shortcut [1, 0, 0, 0, 0, 0, 0, 0, 0, 0, 0, 0] rfl).1 "C").mpr
    ⟨?_, ?_⟩
  · rw [hmax]
    norm_num
  · rw [harg]
    rfl

open Classical in
/-- Pointwise description of one folder step. -/
lemma pcpStep_apply (acc : Fin 12 → ℝ) (fm : ℝ × ℝ) (pc : Fin 12) :
    pcpStep acc fm pc =
      acc pc + (if (20 ≤ fm.1 ∧ fm.1 ≤ 5000) ∧ pitchClassIdx fm.1 = pc
        then fm.2 else 0) := by
  unfold pcpStep
  by_cases h1 : 20 ≤ fm.1 ∧ fm.1 ≤ 5000
  · rw [if_pos h1]
    by_cases h2 : pitchClassIdx fm.1 = pc
    · rw [if_pos ⟨h1, h2⟩]
      subst h2
      rw [Function.update_same]
    · rw [if_neg (fun hc => h2 hc.2), Function.update_noteq (Ne.symm h2)]
      ring
  · rw [if_neg h1, if_neg (fun hc => h1 hc.1)]
    ring

open Classical in
/-- The folder loop in closed form: starting from `acc0`, entry `pc` gains
the sum of the magnitudes of the in-range bins folding to pitch class
`pc`. -/
lemma pcp_foldl_apply (l : List (ℝ × ℝ)) (acc0 : Fin 12 → ℝ) (pc : Fin 12) :
    (l.foldl pcpStep acc0) pc =
      acc0 pc + (l.map (fun fm =>
        if (20 ≤ fm.1 ∧ fm.1 ≤ 5000) ∧ pitchClassIdx fm.1 = pc
        then fm.2 else 0)).sum := by
  induction l generalizing acc0 with
  | nil => simp
  | cons a t ih =>
    rw [List.foldl_cons, List.map_cons, List.sum_cons, ih, pcpStep_apply]
    ring

open Classical in
/-- The accumulated array in closed form. -/
lemma pcpAccumArray_eq (frequencies magnitude : List ℝ) (pc : Fin 12) :
    pcpAccumArray frequencies magnitude pc =
      ((frequencies.zip magnitude).map (fun fm =>
        if (20 ≤ fm.1 ∧ fm.1 ≤ 5000) ∧ pitchClassIdx fm.1 = pc
        then fm.2 else 0)).sum := by
  unfold pcpAccumArray
  rw [pcp_foldl_apply]
  simp

/-- With non-negative magnitudes every accumulator entry is non-negative. -/
lemma pcpAccumArray_nonneg (frequencies magnitude : List ℝ)
    (hm : ∀ x ∈ magnitude, 0 ≤ x) (pc : Fin 12) :
    0 ≤ pcpAccumArray frequencies magnitude pc := by
  rw [pcpAccumArray_eq]
  refine List.sum_nonneg fun x hx => ?_
  obtain ⟨fm, hfm, rfl⟩ := List.mem_map.mp hx
  split_ifs
  · exact hm fm.2 (List.of_mem_zip hfm).2
  · exact le_refl 0

/-- A frequency of exactly 440 Hz folds to pitch-class index 9. -/
lemma pitchClassIdx_440 : pitchClassIdx 440 = ⟨9, by omega⟩ := by
  apply Fin.ext
  show ((round (69 + 12 * Real.logb 2 ((440 : ℝ) / 440)) : ℤ) % 12).toNat = 9
  rw [show (440 : ℝ) / 440 = 1 by norm_num, Real.logb_one]
  rw [show (69 + 12 * (0 : ℝ)) = ((69 : ℤ) : ℝ) by norm_num]
  rw [round_intCast]
  decide

open Classical in
/-- C6: the folder adds the magnitude of exactly the bins whose frequency
satisfies `20 ≤ f ≤ 5000` (inclusive; all other bins, including DC,
contribute nothing) to the accumulator entry `round(69 + 12*log2(f/440))
mod 12`; a bin at exactly 440 Hz folds to index 9, the position of A. -/
theorem pitch_class_folding (frequencies magnitude : List ℝ)
    (_hlen : frequencies.length = magnitude.length) (pc : Fin 12) :
    pcpAccumArray frequencies magnitude pc =
      ((frequencies.zip magnitude).map (fun fm =>
        if (20 ≤ fm.1 ∧ fm.1 ≤ 5000) ∧ pitchClassIdx fm.1 = pc
        then fm.2 else 0)).sum
    ∧ pitchClassIdx 440 = ⟨9, by omega⟩
    ∧ CHROMATIC_SCALE.getD 9 "" = "A" :=
  ⟨pcpAccumArray_eq frequencies magnitude pc, pitchClassIdx_440, rfl⟩

/-- Witness for C6: a single bin at 440 Hz with magnitude 1 accumulates 1
in the entry of pitch class 9 (the note A). -/
theorem pitch_class_folding_witness :
    pcpAccumArray [(440 : ℝ)] [(1 : ℝ)] ⟨9, by omega⟩ = 1 := by
  obtain ⟨hsum, hidx, -⟩ :=
    pitch_class_folding [(440 : ℝ)] [(1 : ℝ)] rfl ⟨9, by omega⟩
  rw [hsum]
  have hc : ((20 ≤ (440 : ℝ) ∧ (440 : ℝ) ≤ 5000) ∧
      pitchClassIdx 440 = ⟨9, by omega⟩) := ⟨by norm_num, hidx⟩
  simp [hc]

/-- Every template profile is the profile of a generated scale. -/
lemma template_mem_decomp (sp : String × List (List ℚ)) (hsp : sp ∈ scale_profiles)
    (prof : List ℚ) (hprof : prof ∈ sp.2) :
    ∃ p ∈ SCALES, ∃ root ∈ CHROMATIC_SCALE,
      prof = pitch_class_profile ((generate_scale root p.2).getD []) := by
  obtain ⟨p, hp, rfl⟩ := List.mem_map.mp hsp
  obtain ⟨root, hroot, rfl⟩ := List.mem_map.mp hprof
  exact ⟨p, hp, root, hroot, rfl⟩

open Classical in
/-- C7: every profile the program produces is non-negative and either sums
to 1 or is all-zero: the 108 templates all sum to 1, and the folder
returns the accumulated array unchanged (all-zero) when its total is 0 and
divides by the total (giving sum 1) otherwise. -/
theorem profile_normalization_invariant :
    (∀ sp ∈ scale_profiles, ∀ prof ∈ sp.2,
      (∀ q ∈ prof, 0 ≤ q) ∧ (prof.sum = 1 ∨ ∀ q ∈ prof, q = 0))
    ∧ (∀ frequencies magnitude : List ℝ,
        frequencies.length = magnitude.length →
        (∀ x ∈ magnitude, 0 ≤ x) →
        (∀ pc, 0 ≤ compute_pitch_class_profile frequencies magnitude pc)
        ∧ ((∑ pc, pcpAccumArray frequencies magnitude pc) = 0 →
            compute_pitch_class_profile frequencies magnitude =
              pcpAccumArray frequencies magnitude
            ∧ ∀ pc, compute_pitch_class_profile frequencies magnitude pc = 0)
        ∧ ((∑ pc, pcpAccumArray frequencies magnitude pc) ≠ 0 →
            (∑ pc, compute_pitch_class_profile frequencies magnitude pc) = 1)
        ∧ ((∀ pc, compute_pitch_class_profile frequencies magnitude pc = 0)
            ∨ (∑ pc, compute_pitch_class_profile frequencies magnitude pc) = 1)) := by
  constructor
  · intro sp hsp prof hprof
    obtain ⟨p, hp, root, hroot, rfl⟩ := template_mem_decomp sp hsp prof hprof
    obtain ⟨-, hmap, hsum⟩ := template_profile_props p hp root hroot
    constructor
    · intro q hq
      rw [hmap] at hq
      obtain ⟨x, -, rfl⟩ := List.mem_map.mp hq
      split_ifs
      · norm_num
      · exact le_refl 0
    · exact Or.inl hsum
  · intro f m _hlen hm
    have hnn : ∀ pc, 0 ≤ pcpAccumArray f m pc := pcpAccumArray_nonneg f m hm
    by_cases h0 : (∑ pc, pcpAccumArray f m pc) = 0
    · have hz : ∀ pc, pcpAccumArray f m pc = 0 := fun pc =>
        (Finset.sum_eq_zero_iff_of_nonneg (fun i _ => hnn i)).mp h0 pc
          (Finset.mem_univ pc)
      have hid : compute_pitch_class_profile f m = pcpAccumArray f m := by
        simp only [compute_pitch_class_profile]
        rw [if_pos h0]
      refine ⟨fun pc => by rw [hid]; exact hnn pc,
        fun _ => ⟨hid, fun pc => by rw [hid]; exact hz pc⟩,
        fun hne => absurd h0 hne, Or.inl fun pc => by rw [hid]; exact hz pc⟩
    · have htotpos : 0 < ∑ pc, pcpAccumArray f m pc :=
        lt_of_le_of_ne (Finset.sum_nonneg fun i _ => hnn i) (Ne.symm h0)
      have hval : ∀ pc, compute_pitch_class_profile f m pc
          = pcpAccumArray f m pc / (∑ i, pcpAccumArray f m i) := by
        intro pc
        simp only [compute_pitch_class_profile]
        rw [if_neg h0]
      have hsum1 : (∑ pc, compute_pitch_class_profile f m pc) = 1 := by
        rw [Finset.sum_congr rfl fun pc _ => hval pc, ← Finset.sum_div,
          div_self h0]
      exact ⟨fun pc => by rw [hval pc]; exact div_nonneg (hnn pc) htotpos.le,
        fun hzero => absurd hzero h0, fun _ => hsum1, Or.inr hsum1⟩

/-- Witness for C7: the single 440 Hz bin with magnitude 1 yields a
non-negative profile summing to 1. -/
theorem profile_normalization_invariant_witness :
    (∀ pc, 0 ≤ compute_pitch_class_profile [(440 : ℝ)] [(1 : ℝ)] pc)
    ∧ ((∀ pc, compute_pitch_class_profile [(440 : ℝ)] [(1 : ℝ)] pc = 0)
        ∨ (∑ pc, compute_pitch_class_profile [(440 : ℝ)] [(1 : ℝ)] pc) = 1) := by
  obtain ⟨h1, -, -, h4⟩ :=
    profile_normalization_invariant.2 [(440 : ℝ)] [(1 : ℝ)] rfl (by norm_num)
  exact ⟨h1, h4⟩

/-- The relation `keyLE` is total. -/
lemma keyLE_total : ∀ a b, keyLE a b ∨ keyLE b a := by
  intro a b
  unfold keyLE
  rcases lt_trichotomy (sortKey a).1 (sortKey b).1 with h | h | h
  · exact Or.inl (Or.inl h)
  · rcases le_total (sortKey a).2 (sortKey b).2 with h2 | h2
    · exact Or.inl (Or.inr ⟨h, h2⟩)
    · exact Or.inr (Or.inr ⟨h.symm, h2⟩)
  · exact Or.inr (Or.inl h)

/-- The relation `keyLE` is transitive. -/
lemma keyLE_trans : ∀ a b c, keyLE a b → keyLE b c → keyLE a c := by
  intro a b c hab hbc
  unfold keyLE at hab hbc ⊢
  rcases hab with h1 | ⟨h1, h1b⟩ <;> rcases hbc with h2 | ⟨h2, h2b⟩
  · exact Or.inl (h1.trans h2)
  · exact Or.inl (h2 ▸ h1)
  · exact Or.inl (h1 ▸ h2)
  · exact Or.inr ⟨h1.trans h2, h1b.trans h2b⟩

/-- The relation `keyLE` spelled out on the candidate fields: score descending, ties by
ascending chromatic index of the root. -/
lemma keyLE_iff (a b : String × String × ℚ) :
    keyLE a b ↔ (b.2.2 < a.2.2 ∨ (a.2.2 = b.2.2 ∧
      CHROMATIC_SCALE.indexOf a.1 ≤ CHROMATIC_SCALE.indexOf b.1)) := by
  unfold keyLE sortKey
  constructor <;> rintro (h | ⟨h1, h2⟩)
  · exact Or.inl (by simpa using h)
  · exact Or.inr ⟨neg_inj.mp h1, h2⟩
  · exact Or.inl (by simpa using h)
  · exact Or.inr ⟨by rw [h1], h2⟩

/-- The score of the zero profile against any template is zero. -/
lemma score_zero (profile : List ℚ) : score (List.replicate 12 0) profile = 0 := by
  unfold score
  refine List.sum_eq_zero fun x hx => ?_
  obtain ⟨fm, hfm, rfl⟩ := List.mem_map.mp hx
  rw [List.eq_of_mem_replicate (List.of_mem_zip hfm).1, zero_mul]

/-- The candidate list of the zero profile, with all scores evaluated. -/
def zeroKeyScores : List (String × String × ℚ) :=
  scale_profiles.flatMap (fun sp =>
    sp.2.enum.map (fun ip => (CHROMATIC_SCALE.getD ip.1 "", sp.1, 0)))

/-- On the zero profile `key_scores` is `zeroKeyScores`. -/
lemma key_scores_zero : key_scores (List.replicate 12 0) = zeroKeyScores := by
  unfold key_scores zeroKeyScores
  have hfun : (fun sp : String × List (List ℚ) =>
        sp.2.enum.map (fun ip =>
          (CHROMATIC_SCALE.getD ip.1 "", sp.1, score (List.replicate 12 0) ip.2)))
      = (fun sp => sp.2.enum.map (fun ip =>
          (CHROMATIC_SCALE.getD ip.1 "", sp.1, (0 : ℚ)))) := by
    funext sp
    exact List.map_congr_left fun ip _ => by rw [score_zero]
  rw [hfun]

/-- Sorting the zero-profile candidates puts (C, Major) first. -/
lemma zero_sorted_head :
    (List.insertionSort keyLE zeroKeyScores).headD ("", "", 0) = ("C", "Major", 0) := by
  decide

/-- The number of candidates is 9 × 12 = 108. -/
lemma key_scores_length (pcp_accum : List ℚ) : (key_scores pcp_accum).length = 108 := by
  unfold key_scores
  rfl

/-- Every (root, scale) pair appears in `key_scores` with the dot-product
score against its template profile. -/
lemma candidate_mem (pcp_accum : List ℚ) (p : String × List ℤ) (hp : p ∈ SCALES)
    (root : String) (hroot : root ∈ CHROMATIC_SCALE) :
    (root, p.1, score pcp_accum
      (pitch_class_profile ((generate_scale root p.2).getD []))) ∈ key_scores pcp_accum := by
  unfold key_scores
  rw [List.mem_flatMap]
  refine ⟨(p.1, CHROMATIC_SCALE.map (fun note =>
    pitch_class_profile ((generate_scale note p.2).getD []))), ?_, ?_⟩
  · unfold scale_profiles
    exact List.mem_map.mpr ⟨p, hp, rfl⟩
  · rw [List.mem_map]
    refine ⟨(CHROMATIC_SCALE.indexOf root,
      pitch_class_profile ((generate_scale root p.2).getD [])), ?_, ?_⟩
    · rw [List.mk_mem_enum_iff_getElem?]
      have hlt : CHROMATIC_SCALE.indexOf root < CHROMATIC_SCALE.length :=
        List.indexOf_lt_length.mpr hroot
      rw [List.getElem?_map, List.getElem?_eq_getElem hlt, List.getElem_indexOf hlt]
      rfl
    · rw [chromatic_getD_indexOf hroot]

/-- C3: the all-zero observed profile (zero-energy input) always produces
a result and deterministically classifies to root C, scale Major, reported
with kind Key; all 108 candidate scores are 0. -/
theorem zero_profile_detects_C_Major :
    detect (List.replicate 12 0) = Detection.scaleMatch "Key" "C" "Major"
    ∧ (key_scores (List.replicate 12 0)).length = 108
    ∧ ∀ c ∈ key_scores (List.replicate 12 0), c.2.2 = 0 := by
  have hz := key_scores_zero
  have hmax : npMax (List.replicate 12 0) = 0 := by
    rw [show List.replicate 12 (0 : ℚ) = [0, 0, 0, 0, 0, 0, 0, 0, 0, 0, 0, 0] from rfl]
    norm_num [npMax, max_def]
  refine ⟨?_, by rw [hz]; rfl, by rw [hz]; decide⟩
  unfold detect
  rw [if_neg (by rw [hmax]; norm_num)]
  have hhead : (key_scores_sorted (List.replicate 12 0)).headD ("", "", 0) =
      ("C", "Major", 0) := by
    unfold key_scores_sorted
    rw [hz]
    exact zero_sorted_head
  simp only [hhead]
  decide

/-- C4: below the shortcut threshold the classifier scores all 108
(root, scale) candidates by the plain dot product with the template
profile, ranks them sorted by score descending with exact ties broken by
ascending chromatic index of the root, and reports the first element of
the ranking. -/
theorem template_scoring_ranking (pcp_accum : List ℚ)
    (_hlen : pcp_accum.length = 12) (hth : npMax pcp_accum ≤ 2/5) :
    List.Perm (key_scores_sorted pcp_accum) (key_scores pcp_accum)
    ∧ (key_scores pcp_accum).length = 108
    ∧ (∀ p ∈ SCALES, ∀ root ∈ CHROMATIC_SCALE,
        (root, p.1, score pcp_accum
          (pitch_class_profile ((generate_scale root p.2).getD [])))
          ∈ key_scores pcp_accum)
    ∧ (key_scores_sorted pcp_accum).Pairwise (fun a b =>
        b.2.2 < a.2.2 ∨ (a.2.2 = b.2.2 ∧
          CHROMATIC_SCALE.indexOf a.1 ≤ CHROMATIC_SCALE.indexOf b.1))
    ∧ ∃ r s sc rest, key_scores_sorted pcp_accum = (r, s, sc) :: rest
        ∧ detect pcp_accum =
            Detection.scaleMatch (if s ∈ KEY_SCALES then "Key" else "Mode") r s := by
  haveI : IsTotal (String × String × ℚ) keyLE := ⟨keyLE_total⟩
  haveI : IsTrans (String × String × ℚ) keyLE := ⟨keyLE_trans⟩
  refine ⟨List.perm_insertionSort keyLE _, key_scores_length pcp_accum,
    fun p hp root hroot => candidate_mem pcp_accum p hp root hroot, ?_, ?_⟩
  · exact (List.sorted_insertionSort keyLE (key_scores pcp_accum)).imp
      fun h => (keyLE_iff _ _).mp h
  · have hlen : (key_scores_sorted pcp_accum).length = 108 := by
      unfold key_scores_sorted
      rw [List.length_insertionSort]
      exact key_scores_length pcp_accum
    cases hsorted : key_scores_sorted pcp_accum with
    | nil => rw [hsorted] at hlen; simp at hlen
    | cons a rest =>
      refine ⟨a.1, a.2.1, a.2.2, rest, rfl, ?_⟩
      unfold detect
      rw [if_neg (not_lt.mpr hth)]
      simp only [hsorted, List.headD_cons]

/-- Witness for C4 at the uniform profile, which is below the threshold. -/
theorem template_scoring_ranking_witness :
    List.Perm (key_scores_sorted (List.replicate 12 (1/12)))
      (key_scores (List.replicate 12 (1/12)))
    ∧ (key_scores (List.replicate 12 (1/12))).length = 108 := by
  obtain ⟨h1, h2, -, -, -⟩ :=
    template_scoring_ranking (List.replicate 12 (1/12)) rfl
      (by rw [show List.replicate 12 ((1 : ℚ)/12) =
            [1/12, 1/12, 1/12, 1/12, 1/12, 1/12, 1/12, 1/12, 1/12, 1/12, 1/12, 1/12]
            from rfl]
          norm_num [npMax, max_def])
  exact ⟨h1, h2⟩

/-- The candidate stored at position `j*12 + i` of the candidate list:
scale block `j` (declaration order), root index `i` (chromatic order). -/
def candAt (pcp_accum : List ℚ) (j i : ℕ) : String × String × ℚ :=
  (key_scores pcp_accum).getD (j * 12 + i) ("", "", 0)

/-- The root and scale name stored at position `j*12 + i`. -/
lemma candAt_fields (pcp_accum : List ℚ) : ∀ j < 9, ∀ i < 12,
    (candAt pcp_accum j i).1 = CHROMATIC_SCALE.getD i ""
    ∧ (candAt pcp_accum j i).2.1 = (SCALES.getD j ("", [])).1 := by
  intro j hj i hi
  interval_cases j <;> interval_cases i <;> exact ⟨rfl, rfl⟩

/-- C10: candidates with equal score and the same root keep the scale
declaration order (Major, Natural Minor, …, Locrian) in the sorted
ranking, because the candidate list is built scale-block by scale-block
and the sort is stable; this resolves the all-zero profile to (C, Major). -/
theorem ranking_stable_scale_order (pcp_accum : List ℚ) (j k i : ℕ)
    (hjk : j < k) (hk : k < 9) (hi : i < 12)
    (heq : (candAt pcp_accum j i).2.2 = (candAt pcp_accum k i).2.2) :
    List.Sublist [candAt pcp_accum j i, candAt pcp_accum k i]
      (key_scores_sorted pcp_accum)
    ∧ (candAt pcp_accum j i).1 = CHROMATIC_SCALE.getD i ""
    ∧ (candAt pcp_accum k i).1 = CHROMATIC_SCALE.getD i ""
    ∧ (candAt pcp_accum j i).2.1 = (SCALES.getD j ("", [])).1
    ∧ (candAt pcp_accum k i).2.1 = (SCALES.getD k ("", [])).1
    ∧ (key_scores_sorted (List.replicate 12 0)).headD ("", "", 0) =
        ("C", "Major", 0) := by
  obtain ⟨hf1, hf2⟩ := candAt_fields pcp_accum j (lt_trans hjk hk) i hi
  obtain ⟨hg1, hg2⟩ := candAt_fields pcp_accum k hk i hi
  have hlen108 := key_scores_length pcp_accum
  have hpj : j * 12 + i < (key_scores pcp_accum).length := by omega
  have hpk : k * 12 + i < (key_scores pcp_accum).length := by omega
  have e1 : candAt pcp_accum j i = (key_scores pcp_accum).get ⟨j * 12 + i, hpj⟩ := by
    unfold candAt
    rw [List.getD_eq_getElem _ _ hpj]
    rfl
  have e2 : candAt pcp_accum k i = (key_scores pcp_accum).get ⟨k * 12 + i, hpk⟩ := by
    unfold candAt
    rw [List.getD_eq_getElem _ _ hpk]
    rfl
  have hsub : List.Sublist [candAt pcp_accum j i, candAt pcp_accum k i]
      (key_scores pcp_accum) := by
    have hpw : ([⟨j * 12 + i, hpj⟩, ⟨k * 12 + i, hpk⟩] :
        List (Fin (key_scores pcp_accum).length)).Pairwise (· < ·) := by
      refine List.pairwise_pair.mpr ?_
      show j * 12 + i < k * 12 + i
      omega
    have := List.map_get_sublist hpw
    simpa [e1, e2] using this
  have hle : keyLE (candAt pcp_accum j i) (candAt pcp_accum k i) := by
    rw [keyLE_iff]
    exact Or.inr ⟨heq, by rw [hf1, hg1]⟩
  refine ⟨?_, hf1, hg1, hf2, hg2, ?_⟩
  · exact List.pair_sublist_insertionSort hle hsub
  · unfold key_scores_sorted
    rw [key_scores_zero]
    exact zero_sorted_head

/-- Witness for C10 on the zero profile: the (C, Major) candidate precedes
the (C, Natural Minor) candidate in the sorted ranking. -/
theorem ranking_stable_scale_order_witness :
    List.Sublist
      [candAt (List.replicate 12 0) 0 0, candAt (List.replicate 12 0) 1 0]
      (key_scores_sorted (List.replicate 12 0)) :=
  (ranking_stable_scale_order (List.replicate 12 0) 0 1 0 (by omega) (by omega)
    (by omega)
    (by unfold candAt; rw [key_scores_zero]; decide)).1

/-- The full-period cosine sum vanishes: the real parts of the 4096-th
roots of unity sum to zero. -/
lemma sum_cos_period :
    ∑ n ∈ Finset.range 4096, Real.cos (2 * Real.pi * n / 4096) = 0 := by
  have hprim : IsPrimitiveRoot (Complex.exp (2 * Real.pi * Complex.I / (4096 : ℕ))) 4096 :=
    Complex.isPrimitiveRoot_exp 4096 (by norm_num)
  have hgeom : ∑ i ∈ Finset.range 4096,
      Complex.exp (2 * Real.pi * Complex.I / (4096 : ℕ)) ^ i = 0 :=
    hprim.geom_sum_eq_zero (by norm_num)
  have hterm : ∀ n ∈ Finset.range 4096,
      Complex.exp (2 * Real.pi * Complex.I / (4096 : ℕ)) ^ n
        = Complex.exp (((2 * Real.pi * n / 4096 : ℝ) : ℂ) * Complex.I) := by
    intro n _
    have harg : (n : ℂ) * (2 * Real.pi * Complex.I / (4096 : ℕ))
        = ((2 * Real.pi * n / 4096 : ℝ) : ℂ) * Complex.I := by
      push_cast
      ring
    rw [← Complex.exp_nat_mul, harg]
  rw [Finset.sum_congr rfl hterm] at hgeom
  have hre := congrArg Complex.re hgeom
  rw [Complex.re_sum] at hre
  have hcos : ∀ n ∈ Finset.range 4096,
      (Complex.exp (((2 * Real.pi * n / 4096 : ℝ) : ℂ) * Complex.I)).re
        = Real.cos (2 * Real.pi * n / 4096) := fun n _ =>
    Complex.exp_ofReal_mul_I_re _
  rw [Finset.sum_congr rfl hcos, Complex.zero_re] at hre
  exact hre

/-- The window length as an integer. -/
lemma window_size_cast : (window_size : ℤ) = 4096 := rfl

/-- The hop length as an integer. -/
lemma step_size_cast : (step_size : ℤ) = 2048 := rfl

/-- The periodic Hann window sums to half the window length. -/
lemma hann_sum : ∑ n ∈ Finset.range window_size, hanning_window n = 2048 := by
  have h1 : ∀ n ∈ Finset.range window_size,
      hanning_window n = 1/2 - 1/2 * Real.cos (2 * Real.pi * n / 4096) := by
    intro n _
    unfold hanning_window window_size
    norm_num
  rw [Finset.sum_congr rfl h1, Finset.sum_sub_distrib, ← Finset.mul_sum]
  rw [show Finset.range window_size = Finset.range 4096 from rfl, sum_cos_period]
  rw [Finset.sum_const, Finset.card_range, nsmul_eq_mul]
  norm_num

/-- Reading inside a replicated list returns the replicated value. -/
lemma getD_replicate_lt {n m : ℕ} {a d : ℝ} (h : m < n) :
    (List.replicate n a).getD m d = a := by
  rw [List.getD_eq_getElem _ _ (by simpa using h)]
  simp

/-- DC-bin magnitude of an all-ones signal: each windowed segment is the
Hann window itself, whose DFT bin 0 has magnitude 2048. -/
lemma rfftMagnitude_ones (L start : ℕ) (h : start + window_size ≤ L) :
    rfftMagnitude (List.replicate L 1) start 0 = 2048 := by
  unfold rfftMagnitude
  simp only [Nat.cast_zero, mul_zero, zero_mul, neg_zero, zero_div,
    Complex.exp_zero, mul_one]
  have hseg : ∀ n ∈ Finset.range window_size,
      ((segmentValue (List.replicate L 1) start n : ℝ) : ℂ)
        = ((hanning_window n : ℝ) : ℂ) := by
    intro n hn
    have hlt : start + n < L := by
      have hn1 := Finset.mem_range.mp hn
      have hn4 : n < 4096 := hn1
      have h4 : start + 4096 ≤ L := h
      omega
    unfold segmentValue
    rw [getD_replicate_lt hlt, one_mul]
  rw [Finset.sum_congr rfl hseg, ← Complex.ofReal_sum, hann_sum,
    Complex.abs_ofReal]
  norm_num

/-- Fold of magnitude accumulation as a sum over the starts. -/
lemma foldl_mag_eq (l : List ℤ) (data : List ℝ) (k : ℕ) (a : ℝ) :
    l.foldl (fun acc start => acc + rfftMagnitude data start.toNat k) a
      = a + (l.map (fun start => rfftMagnitude data start.toNat k)).sum := by
  induction l generalizing a with
  | nil => simp
  | cons x t ih =>
    rw [List.foldl_cons, List.map_cons, List.sum_cons, ih]
    ring

/-- Membership in the analyzer's offset list: the multiples of the hop
size strictly below `stop`. -/
lemma mem_pyRange (stop : ℤ) (o : ℤ) :
    o ∈ pyRange stop step_size ↔ 0 ≤ o ∧ (step_size : ℤ) ∣ o ∧ o < stop := by
  unfold pyRange
  constructor
  · intro ho
    obtain ⟨n, hn, rfl⟩ := List.mem_map.mp ho
    rw [List.mem_range] at hn
    have hn2 : n < ((stop + 2048 - 1) / 2048).toNat := hn
    refine ⟨?_, ⟨(n : ℤ), ?_⟩, ?_⟩
    · show (0 : ℤ) ≤ (n : ℤ) * 2048
      omega
    · show (n : ℤ) * 2048 = 2048 * (n : ℤ)
      ring
    · show (n : ℤ) * 2048 < stop
      omega
  · rintro ⟨h0, ⟨c, hc⟩, hlt⟩
    rw [List.mem_map]
    have hc2 : o = 2048 * c := hc
    refine ⟨c.toNat, ?_, ?_⟩
    · rw [List.mem_range]
      show c.toNat < ((stop + 2048 - 1) / 2048).toNat
      omega
    · show (c.toNat : ℤ) * 2048 = o
      omega

/-- The offset list is empty when nothing fits. -/
lemma pyRange_eq_nil {stop : ℤ} (h : stop ≤ 0) : pyRange stop step_size = [] := by
  rw [List.eq_nil_iff_forall_not_mem]
  intro o ho
  obtain ⟨h0, -, hlt⟩ := (mem_pyRange stop o).mp ho
  omega

/-- C1 counterexample: on 8193 all-one samples the code averages the three
segment magnitudes by `num_windows = 2` (giving 3072 at bin 0), while the
spec's mean over the segments processed divides by 3 (giving 2048). -/
theorem averaging_counterexample :
    averagedMagnitude (List.replicate 8193 1) 0 = 3072
    ∧ specAveragedMagnitude (List.replicate 8193 1) 0 = 2048
    ∧ averagedMagnitude (List.replicate 8193 1) 0 ≠
        specAveragedMagnitude (List.replicate 8193 1) 0 := by
  have hlen : (List.replicate (8193 : ℕ) (1 : ℝ)).length = 8193 := by
    rw [List.length_replicate]
  have h1 : averagedMagnitude (List.replicate 8193 1) 0 = 3072 := by
    simp only [averagedMagnitude]
    rw [hlen]
    rw [show ((8193 : ℕ) : ℤ) - (window_size : ℤ) = 4097 from by
      rw [window_size_cast]; norm_num]
    rw [show pyRange 4097 step_size = [0, 2048, 4096] from by decide]
    simp only [List.foldl_cons, List.foldl_nil]
    rw [show ((0 : ℤ)).toNat = 0 from rfl, show ((2048 : ℤ)).toNat = 2048 from rfl,
      show ((4096 : ℤ)).toNat = 4096 from rfl]
    rw [rfftMagnitude_ones 8193 0 (by norm_num [window_size]),
      rfftMagnitude_ones 8193 2048 (by norm_num [window_size]),
      rfftMagnitude_ones 8193 4096 (by norm_num [window_size])]
    rw [show num_windows 8193 = 2 from by decide]
    norm_num
  have h2 : specAveragedMagnitude (List.replicate 8193 1) 0 = 2048 := by
    simp only [specAveragedMagnitude]
    rw [hlen]
    rw [show claimStarts 8193 = [0, 2048, 4096] from by decide]
    simp only [List.map_cons, List.map_nil]
    rw [rfftMagnitude_ones 8193 0 (by norm_num [window_size]),
      rfftMagnitude_ones 8193 2048 (by norm_num [window_size]),
      rfftMagnitude_ones 8193 4096 (by norm_num [window_size])]
    norm_num [List.sum_cons, List.sum_nil]
  exact ⟨h1, h2, by rw [h1, h2]; norm_num⟩

/-- C1 amended: the spectrum is the bin-wise sum of the per-segment
magnitudes over the offsets that are multiples of H with
`offset + W < len(samples)` (strict), divided by
`num_windows = (len - W) // H` when that is positive and left undivided
otherwise. -/
theorem averaging_amended (data : List ℝ) (k : ℕ) :
    averagedMagnitude data k =
      ((pyRange ((data.length : ℤ) - window_size) step_size).map
        (fun start => rfftMagnitude data start.toNat k)).sum /
        (if 0 < num_windows data.length then (num_windows data.length : ℝ) else 1)
    ∧ (∀ o : ℤ, o ∈ pyRange ((data.length : ℤ) - window_size) step_size ↔
        0 ≤ o ∧ (step_size : ℤ) ∣ o ∧ o + window_size < data.length) := by
  constructor
  · simp only [averagedMagnitude]
    rw [foldl_mag_eq, zero_add]
    by_cases hpos : 0 < num_windows data.length
    · rw [if_pos hpos, if_pos hpos]
    · rw [if_neg hpos, if_neg hpos, div_one]
  · intro o
    rw [mem_pyRange]
    constructor <;> rintro ⟨ha, hb, hc⟩ <;> exact ⟨ha, hb, by omega⟩

/-- C2 counterexample: an input of exactly one window length (4096 ≥ W)
still triggers the warning, contradicting the claim that no warning is
emitted for inputs of length at least W. -/
theorem warning_counterexample :
    warnsInsufficientData (List.replicate 4096 (1 : ℝ))
    ∧ window_size ≤ (List.replicate 4096 (1 : ℝ)).length := by
  constructor
  · unfold warnsInsufficientData
    rw [show (List.replicate 4096 (1 : ℝ)).length = 4096 from by
      rw [List.length_replicate]]
    decide
  · rw [show (List.replicate 4096 (1 : ℝ)).length = 4096 from by
      rw [List.length_replicate]]
    decide

/-- C2 amended: the warning is emitted exactly when
`len(samples) < W + H = 6144`; when `len(samples) ≤ W` no segment fits and
the spectrum is all-zero; for `W < len < W + H` the warning is still
emitted although one segment was accumulated — on 5000 all-one samples the
warning fires while bin 0 holds the unscaled value 2048. -/
theorem warning_amended (data : List ℝ) :
    (warnsInsufficientData data ↔ data.length < window_size + step_size)
    ∧ (data.length ≤ window_size → ∀ k, averagedMagnitude data k = 0)
    ∧ warnsInsufficientData (List.replicate 5000 (1 : ℝ))
    ∧ averagedMagnitude (List.replicate 5000 (1 : ℝ)) 0 = 2048 := by
  refine ⟨?_, ?_, ?_, ?_⟩
  · unfold warnsInsufficientData num_windows window_size step_size
    omega
  · intro hle k
    have hle4096 : data.length ≤ 4096 := hle
    simp only [averagedMagnitude]
    have hempty : pyRange ((data.length : ℤ) - window_size) step_size = [] :=
      pyRange_eq_nil (by rw [window_size_cast]; omega)
    rw [hempty]
    simp only [List.foldl_nil]
    split_ifs
    · exact zero_div _
    · rfl
  · unfold warnsInsufficientData
    rw [show (List.replicate 5000 (1 : ℝ)).length = 5000 from by
      rw [List.length_replicate]]
    decide
  · simp only [averagedMagnitude]
    rw [show (List.replicate 5000 (1 : ℝ)).length = 5000 from by
      rw [List.length_replicate]]
    rw [show ((5000 : ℕ) : ℤ) - (window_size : ℤ) = 904 from by
      rw [window_size_cast]; norm_num]
    rw [show pyRange 904 step_size = [0] from by decide]
    simp only [List.foldl_cons, List.foldl_nil]
    rw [show ((0 : ℤ)).toNat = 0 from rfl]
    rw [rfftMagnitude_ones 5000 0 (by norm_num [window_size])]
    rw [show num_windows 5000 = 0 from by decide]
    norm_num

/-- Witness for the amended C2 on the empty input: warning and all-zero
spectrum. -/
theorem warning_amended_witness :
    warnsInsufficientData ([] : List ℝ)
    ∧ averagedMagnitude ([] : List ℝ) 0 = 0 := by
  obtain ⟨h1, h2, -, -⟩ := warning_amended ([] : List ℝ)
  exact ⟨h1.mpr (by norm_num [window_size, step_size]),
    h2 (by norm_num [window_size]) 0⟩

end MusicKeyDetector
